import Mathlib

/-!
Verification of the pod-modifier mutating-webhook core (`cmd/webhook.go`).

The Go sources are shallowly embedded:

* pure Go functions (`mutationRequired`, `createPatch`, the container
  rewrite loops) become Lean functions over an explicit data model;
* the external decoders (`json.Unmarshal` into `corev1.Pod` / `config`,
  the admission-review deserializer) are passed in as function-valued
  parameters, since their implementations live outside this repository;
* the structural JSON diff (`github.com/mattbaird/jsonpatch`, an external
  dependency) is modelled from the spec over an explicit `Json` type.
-/

namespace Webhook

/-! ### Association-list helpers

Go maps (`map[string]string`, JSON objects) are modelled as association
lists; `alookup` returns the value at the first matching key. -/

def alookup {α : Type} (k : String) : List (String × α) → Option α
  | [] => none
  | (k', v) :: rest => if k' = k then some v else alookup k rest

@[simp] theorem alookup_nil {α : Type} (k : String) : @alookup α k [] = none := rfl

theorem alookup_cons {α : Type} (k k' : String) (v : α) (rest : List (String × α)) :
    alookup k ((k', v) :: rest) = if k' = k then some v else alookup k rest := rfl

/-! ### JSON values, patch operations

`Json` is the canonical structural form both pods are serialized to before
diffing; a patch operation is one of replace/add/remove with a
JSON-pointer-style path. -/

inductive Json where
  | null : Json
  | bool (v : Bool) : Json
  | num (v : Int) : Json
  | str (v : String) : Json
  | arr (xs : List Json) : Json
  | obj (fields : List (String × Json)) : Json

inductive Step where
  | key (k : String) : Step
  | idx (i : Nat) : Step

abbrev Path := List Step

inductive PatchOp where
  | add (path : Path) (v : Json) : PatchOp
  | remove (path : Path) : PatchOp
  | replace (path : Path) (v : Json) : PatchOp

/-- Prepend one path step to a patch operation's path. -/
def shiftStep (s : Step) : PatchOp → PatchOp
  | .add p v => .add (s :: p) v
  | .remove p => .remove (s :: p)
  | .replace p v => .replace (s :: p) v

/-! ### The structural diff

Modelled from the spec: the repository delegates diffing to the external
`jsonpatch.CreatePatch`, whose source is not part of this repository.  Per
the spec's Patch Codec contract, the diff walks both canonical forms in
step, emits operations only for differing fields (replace for changed
values, remove for object keys dropped, add for object keys introduced),
and is a pure function of its two inputs. -/

/-- Emit an add for every key of the modified object that the original lacks. -/
def diffAdds (fs gs : List (String × Json)) : List PatchOp :=
  gs.filterMap fun kv => if (alookup kv.1 fs).isSome then none else some (.add [.key kv.1] kv.2)

mutual

def diff0 : Json → Json → List PatchOp
  | .obj fs, .obj gs => diffRemoves fs gs ++ diffAdds fs gs
  | .arr xs, .arr ys =>
      if xs.length = ys.length then diffElems 0 xs ys
      else [.replace [] (.arr ys)]
  | .null, .null => []
  | .bool a, .bool b => if a = b then [] else [.replace [] (.bool b)]
  | .num a, .num b => if a = b then [] else [.replace [] (.num b)]
  | .str a, .str b => if a = b then [] else [.replace [] (.str b)]
  | _, b => [.replace [] b]

/-- Walk the original object's fields in order: recurse where the key
survives, emit a remove where it does not. -/
def diffRemoves : List (String × Json) → List (String × Json) → List PatchOp
  | [], _ => []
  | (k, v) :: fs, gs =>
      (match alookup k gs with
       | some w => (diff0 v w).map (shiftStep (.key k))
       | none => [.remove [.key k]]) ++ diffRemoves fs gs

/-- Element-wise diff of two equal-length arrays, paths indexed from `i`. -/
def diffElems : Nat → List Json → List Json → List PatchOp
  | _, [], _ => []
  | _, _, [] => []
  | i, x :: xs, y :: ys => (diff0 x y).map (shiftStep (.idx i)) ++ diffElems (i + 1) xs ys

end

/-! ### Applying a patch

The application semantics of RFC-6902-style operations, used to state the
codec's roundtrip property.  All navigation is by structural recursion on
the path; a dangling path yields `none`. -/

/-- Replace the value at the first occurrence of key `k` (no-op when absent). -/
def setKey (k : String) (v : Json) : List (String × Json) → List (String × Json)
  | [] => []
  | (k', v') :: fs => if k' = k then (k', v) :: fs else (k', v') :: setKey k v fs

/-- Drop the first occurrence of key `k`. -/
def eraseKey (k : String) : List (String × Json) → List (String × Json)
  | [] => []
  | (k', v') :: fs => if k' = k then fs else (k', v') :: eraseKey k fs

/-- Insert a key in ascending key order (before the first larger key). -/
def insertKey (k : String) (v : Json) : List (String × Json) → List (String × Json)
  | [] => [(k, v)]
  | (k', v') :: fs => if k < k' then (k, v) :: (k', v') :: fs else (k', v') :: insertKey k v fs

/-- Insert an element at position `i` (`none` when `i` exceeds the length). -/
def insertElem (v : Json) : Nat → List Json → Option (List Json)
  | 0, xs => some (v :: xs)
  | _ + 1, [] => none
  | n + 1, x :: xs => (insertElem v n xs).map (x :: ·)

def replaceAt : Json → Path → Json → Option Json
  | _, [], v => some v
  | .obj fs, .key k :: p, v =>
      match alookup k fs with
      | some w => (replaceAt w p v).map fun w' => .obj (setKey k w' fs)
      | none => none
  | .arr xs, .idx i :: p, v =>
      match xs[i]? with
      | some x => (replaceAt x p v).map fun x' => .arr (xs.set i x')
      | none => none
  | _, _, _ => none

def removeAt : Json → Path → Option Json
  | .obj fs, [.key k] => if (alookup k fs).isSome then some (.obj (eraseKey k fs)) else none
  | .obj fs, .key k :: p :: ps =>
      match alookup k fs with
      | some w => (removeAt w (p :: ps)).map fun w' => .obj (setKey k w' fs)
      | none => none
  | .arr xs, [.idx i] => if i < xs.length then some (.arr (xs.eraseIdx i)) else none
  | .arr xs, .idx i :: p :: ps =>
      match xs[i]? with
      | some x => (removeAt x (p :: ps)).map fun x' => .arr (xs.set i x')
      | none => none
  | _, _ => none

def addAt : Json → Path → Json → Option Json
  | _, [], v => some v
  | .obj fs, [.key k], v =>
      if (alookup k fs).isSome then some (.obj (setKey k v fs)) else some (.obj (insertKey k v fs))
  | .obj fs, .key k :: p :: ps, v =>
      match alookup k fs with
      | some w => (addAt w (p :: ps) v).map fun w' => .obj (setKey k w' fs)
      | none => none
  | .arr xs, [.idx i], v => (insertElem v i xs).map .arr
  | .arr xs, .idx i :: p :: ps, v =>
      match xs[i]? with
      | some x => (addAt x (p :: ps) v).map fun x' => .arr (xs.set i x')
      | none => none
  | _, _, _ => none

def applyOp (j : Json) : PatchOp → Option Json
  | .replace p v => replaceAt j p v
  | .remove p => removeAt j p
  | .add p v => addAt j p v

/-- Apply an ordered operation sequence left to right. -/
def applyPatch (ops : List PatchOp) (j : Json) : Option Json :=
  ops.foldlM applyOp j

/-! ### Canonical structural form

Serialization produces objects whose keys are strictly ascending (hence
duplicate-free), recursively.  The diff consumes such canonical forms. -/

inductive Canon : Json → Prop where
  | null : Canon .null
  | bool (v : Bool) : Canon (.bool v)
  | num (v : Int) : Canon (.num v)
  | str (v : String) : Canon (.str v)
  | arr {xs : List Json} : (∀ x ∈ xs, Canon x) → Canon (.arr xs)
  | obj {fs : List (String × Json)} :
      List.Pairwise (fun a b : String × Json => a.1 < b.1) fs →
      (∀ kv ∈ fs, Canon kv.2) → Canon (.obj fs)

/-! ### Association-list lemmas -/

/-- Keys with pairwise strictly ascending order (the canonical object shape). -/
def SortedKeys (fs : List (String × Json)) : Prop :=
  List.Pairwise (fun a b : String × Json => a.1 < b.1) fs

theorem alookup_eq_none {α : Type} {k : String} {l : List (String × α)}
    (h : ∀ kv ∈ l, kv.1 ≠ k) : alookup k l = none := by
  induction l with
  | nil => rfl
  | cons kv rest ih =>
      obtain ⟨k', v⟩ := kv
      have hne : k' ≠ k := h (k', v) (by simp)
      rw [alookup_cons, if_neg hne]
      exact ih fun kv hm => h kv (by simp [hm])

theorem alookup_mem {α : Type} {k : String} {l : List (String × α)} {v : α}
    (h : alookup k l = some v) : (k, v) ∈ l := by
  induction l with
  | nil => simp [alookup] at h
  | cons kv rest ih =>
      obtain ⟨k', v'⟩ := kv
      by_cases hk : k' = k
      · rw [alookup_cons, if_pos hk] at h
        cases h
        subst hk
        exact List.mem_cons_self _ _
      · rw [alookup_cons, if_neg hk] at h
        exact List.mem_cons_of_mem _ (ih h)

theorem alookup_of_mem_nodup {α : Type} {k : String} {l : List (String × α)} {v : α}
    (hnd : (l.map Prod.fst).Nodup) (h : (k, v) ∈ l) : alookup k l = some v := by
  induction l with
  | nil => simp at h
  | cons kv rest ih =>
      obtain ⟨k', v'⟩ := kv
      simp only [List.map_cons, List.nodup_cons] at hnd
      rcases List.mem_cons.mp h with heq | hmem
      · cases heq
        rw [alookup_cons, if_pos rfl]
      · have hne : k' ≠ k := by
          intro hkk
          subst hkk
          exact hnd.1 (List.mem_map_of_mem Prod.fst hmem)
        rw [alookup_cons, if_neg hne]
        exact ih hnd.2 hmem

theorem alookup_isSome_of_mem {α : Type} {k : String} {v : α} {l : List (String × α)}
    (h : (k, v) ∈ l) : (alookup k l).isSome := by
  induction l with
  | nil => simp at h
  | cons kv rest ih =>
      obtain ⟨k', v'⟩ := kv
      by_cases hk : k' = k
      · rw [alookup_cons, if_pos hk]; rfl
      · rw [alookup_cons, if_neg hk]
        rcases List.mem_cons.mp h with heq | hmem
        · exact absurd (congrArg Prod.fst heq).symm hk
        · exact ih hmem

theorem setKey_of_alookup_eq {k : String} {fs : List (String × Json)} {v : Json}
    (h : alookup k fs = some v) : setKey k v fs = fs := by
  induction fs with
  | nil => rfl
  | cons kv rest ih =>
      obtain ⟨k', v'⟩ := kv
      by_cases hk : k' = k
      · rw [alookup_cons, if_pos hk] at h
        cases h
        simp [setKey, hk]
      · rw [alookup_cons, if_neg hk] at h
        simp [setKey, hk, ih h]

theorem alookup_setKey_self {k : String} {fs : List (String × Json)} {v w : Json}
    (h : alookup k fs = some v) : alookup k (setKey k w fs) = some w := by
  induction fs with
  | nil => simp [alookup] at h
  | cons kv rest ih =>
      obtain ⟨k', v'⟩ := kv
      by_cases hk : k' = k
      · simp [setKey, alookup, hk]
      · rw [alookup_cons, if_neg hk] at h
        simp [setKey, alookup, hk, ih h]

theorem alookup_setKey_ne {k k' : String} {fs : List (String × Json)} {w : Json}
    (h : k ≠ k') : alookup k' (setKey k w fs) = alookup k' fs := by
  induction fs with
  | nil => rfl
  | cons kv rest ih =>
      obtain ⟨k₀, v₀⟩ := kv
      by_cases hk : k₀ = k
      · subst hk
        have hne : k₀ ≠ k' := h
        simp [setKey, alookup, hne]
      · simp [setKey, alookup, hk, ih]

theorem setKey_setKey {k : String} {fs : List (String × Json)} {v w : Json} :
    setKey k w (setKey k v fs) = setKey k w fs := by
  induction fs with
  | nil => rfl
  | cons kv rest ih =>
      obtain ⟨k₀, v₀⟩ := kv
      by_cases hk : k₀ = k
      · simp [setKey, hk]
      · simp [setKey, hk, ih]

theorem map_fst_setKey {k : String} {v : Json} {fs : List (String × Json)} :
    (setKey k v fs).map Prod.fst = fs.map Prod.fst := by
  induction fs with
  | nil => rfl
  | cons kv rest ih =>
      obtain ⟨k₀, v₀⟩ := kv
      by_cases hk : k₀ = k <;> simp [setKey, hk, ih]

theorem eraseKey_sublist (k : String) (fs : List (String × Json)) :
    (eraseKey k fs).Sublist fs := by
  induction fs with
  | nil => simp [eraseKey]
  | cons kv rest ih =>
      obtain ⟨k₀, v₀⟩ := kv
      by_cases hk : k₀ = k
      · simp only [eraseKey, if_pos hk]
        exact List.sublist_cons_self _ _
      · simp only [eraseKey, if_neg hk]
        exact List.Sublist.cons₂ (k₀, v₀) ih

theorem alookup_eraseKey_ne {k k' : String} {fs : List (String × Json)}
    (h : k ≠ k') : alookup k' (eraseKey k fs) = alookup k' fs := by
  induction fs with
  | nil => rfl
  | cons kv rest ih =>
      obtain ⟨k₀, v₀⟩ := kv
      by_cases hk : k₀ = k
      · subst hk
        have hne : k₀ ≠ k' := h
        simp [eraseKey, alookup, hne]
      · simp [eraseKey, alookup, hk, ih]

theorem alookup_eraseKey_self {k : String} {fs : List (String × Json)}
    (hnd : (fs.map Prod.fst).Nodup) : alookup k (eraseKey k fs) = none := by
  induction fs with
  | nil => rfl
  | cons kv rest ih =>
      obtain ⟨k₀, v₀⟩ := kv
      simp only [List.map_cons, List.nodup_cons] at hnd
      by_cases hk : k₀ = k
      · subst hk
        rw [show eraseKey k₀ ((k₀, v₀) :: rest) = rest by simp [eraseKey]]
        exact alookup_eq_none fun kv hm hc =>
          hnd.1 (hc ▸ List.mem_map_of_mem Prod.fst hm)
      · simp [eraseKey, alookup, hk, ih hnd.2]

theorem mem_map_fst_insertKey {k a : String} {v : Json} {fs : List (String × Json)}
    (h : a ∈ (insertKey k v fs).map Prod.fst) : a = k ∨ a ∈ fs.map Prod.fst := by
  induction fs with
  | nil => simpa [insertKey] using h
  | cons kv rest ih =>
      obtain ⟨k₀, v₀⟩ := kv
      by_cases hlt : k < k₀
      · simp only [insertKey, if_pos hlt, List.map_cons, List.mem_cons] at h
        rcases h with h | h | h
        · exact Or.inl h
        · exact Or.inr (by simp [h])
        · exact Or.inr (by simp [h])
      · simp only [insertKey, if_neg hlt, List.map_cons, List.mem_cons] at h
        rcases h with h | h
        · exact Or.inr (by simp [h])
        · rcases ih h with h' | h'
          · exact Or.inl h'
          · exact Or.inr (by simp [h'])

theorem alookup_insertKey_self {k : String} {v : Json} {fs : List (String × Json)}
    (h : alookup k fs = none) : alookup k (insertKey k v fs) = some v := by
  induction fs with
  | nil => simp [insertKey, alookup]
  | cons kv rest ih =>
      obtain ⟨k₀, v₀⟩ := kv
      have hne : k₀ ≠ k := by
        intro hc
        rw [alookup_cons, if_pos hc] at h
        cases h
      rw [alookup_cons, if_neg hne] at h
      by_cases hlt : k < k₀
      · simp [insertKey, hlt, alookup]
      · simp [insertKey, hlt, alookup, hne, ih h]

theorem alookup_insertKey_ne {k k' : String} {v : Json} {fs : List (String × Json)}
    (h : k ≠ k') : alookup k' (insertKey k v fs) = alookup k' fs := by
  induction fs with
  | nil => simp [insertKey, alookup, fun hc : k = k' => h hc]
  | cons kv rest ih =>
      obtain ⟨k₀, v₀⟩ := kv
      by_cases hlt : k < k₀
      · simp [insertKey, hlt, alookup, fun hc : k = k' => h hc]
      · simp [insertKey, hlt, alookup, ih]

theorem sortedKeys_insertKey {k : String} {v : Json} {fs : List (String × Json)}
    (hs : SortedKeys fs) (habs : k ∉ fs.map Prod.fst) :
    SortedKeys (insertKey k v fs) := by
  induction fs with
  | nil => simp [insertKey, SortedKeys]
  | cons kv rest ih =>
      obtain ⟨k₀, v₀⟩ := kv
      obtain ⟨hhead, htail⟩ := List.pairwise_cons.mp hs
      simp only [List.map_cons, List.mem_cons] at habs
      push_neg at habs
      by_cases hlt : k < k₀
      · rw [insertKey, if_pos hlt]
        refine List.pairwise_cons.mpr ⟨?_, hs⟩
        intro kv' hm
        rcases List.mem_cons.mp hm with h | h
        · subst h; exact hlt
        · exact lt_trans hlt (hhead kv' h)
      · rw [insertKey, if_neg hlt]
        refine List.pairwise_cons.mpr ⟨?_, ih htail habs.2⟩
        intro kv' hm
        have hm' := List.mem_map_of_mem Prod.fst hm
        rcases mem_map_fst_insertKey hm' with h | h
        · rw [h]
          rcases lt_or_eq_of_le (not_lt.mp hlt) with h' | h'
          · exact h'
          · exact absurd h'.symm habs.1
        · obtain ⟨kv₀, hkv₀, hfst⟩ := List.mem_map.mp h
          rw [← hfst]
          exact hhead kv₀ hkv₀

theorem sortedKeys_setKey {k : String} {v : Json} {fs : List (String × Json)}
    (hs : SortedKeys fs) : SortedKeys (setKey k v fs) := by
  have h1 : ((setKey k v fs).map Prod.fst).Pairwise (· < ·) := by
    rw [map_fst_setKey]
    exact List.pairwise_map.mpr hs
  exact List.pairwise_map.mp h1

theorem sortedKeys_eraseKey {k : String} {fs : List (String × Json)}
    (hs : SortedKeys fs) : SortedKeys (eraseKey k fs) :=
  List.Pairwise.sublist (eraseKey_sublist k fs) hs

theorem SortedKeys.nodupKeys {fs : List (String × Json)} (hs : SortedKeys fs) :
    (fs.map Prod.fst).Nodup := by
  have : (fs.map Prod.fst).Pairwise (· < ·) := List.pairwise_map.mpr hs
  exact this.imp ne_of_lt

/-! ### Patch-application framing lemmas -/

@[simp] theorem applyPatch_nil (j : Json) : applyPatch [] j = some j := rfl

theorem applyPatch_cons (op : PatchOp) (ops : List PatchOp) (j : Json) :
    applyPatch (op :: ops) j = (applyOp j op).bind (applyPatch ops) := by
  cases h : applyOp j op <;> simp [applyPatch, List.foldlM, h, Option.bind]

theorem applyPatch_append (ops₁ ops₂ : List PatchOp) (j : Json) :
    applyPatch (ops₁ ++ ops₂) j = (applyPatch ops₁ j).bind (applyPatch ops₂) := by
  induction ops₁ generalizing j with
  | nil => simp
  | cons op ops ih =>
      rw [List.cons_append, applyPatch_cons, applyPatch_cons]
      cases applyOp j op <;> simp [ih]

/-- Well-shaped operations: removes and adds never target the document root.
Every operation emitted by the diff is well shaped. -/
def OpOk : PatchOp → Prop
  | .replace _ _ => True
  | .remove p => p ≠ []
  | .add p _ => p ≠ []

theorem opOk_shiftStep (s : Step) (op : PatchOp) : OpOk (shiftStep s op) := by
  cases op <;> simp [shiftStep, OpOk]

/-- An operation on path `key k :: p` factors through the object's field `k`. -/
theorem applyOp_shift_key {fs : List (String × Json)} {k : String} {v : Json}
    (hk : alookup k fs = some v) (op : PatchOp) (hop : OpOk op) :
    applyOp (.obj fs) (shiftStep (.key k) op) =
      (applyOp v op).map fun v' => .obj (setKey k v' fs) := by
  cases op with
  | replace p w =>
      cases p with
      | nil => simp [applyOp, shiftStep, replaceAt, hk]
      | cons s ps => simp [applyOp, shiftStep, replaceAt, hk]
  | remove p =>
      cases p with
      | nil => exact absurd rfl hop
      | cons s ps => simp [applyOp, shiftStep, removeAt, hk]
  | add p w =>
      cases p with
      | nil => exact absurd rfl hop
      | cons s ps => simp [applyOp, shiftStep, addAt, hk]

/-- An operation on path `idx i :: p` factors through the array's element `i`. -/
theorem applyOp_shift_idx {xs : List Json} {i : Nat} {x : Json}
    (hx : xs[i]? = some x) (op : PatchOp) (hop : OpOk op) :
    applyOp (.arr xs) (shiftStep (.idx i) op) =
      (applyOp x op).map fun x' => .arr (xs.set i x') := by
  cases op with
  | replace p w =>
      cases p with
      | nil => simp [applyOp, shiftStep, replaceAt, hx]
      | cons s ps => simp [applyOp, shiftStep, replaceAt, hx]
  | remove p =>
      cases p with
      | nil => exact absurd rfl hop
      | cons s ps => simp [applyOp, shiftStep, removeAt, hx]
  | add p w =>
      cases p with
      | nil => exact absurd rfl hop
      | cons s ps => simp [applyOp, shiftStep, addAt, hx]

/-- A whole operation sequence under key `k` rewrites just that field. -/
theorem applyPatch_shift_key {ops : List PatchOp} {fs : List (String × Json)}
    {k : String} {v : Json} (hk : alookup k fs = some v)
    (hops : ∀ op ∈ ops, OpOk op) :
    applyPatch (ops.map (shiftStep (.key k))) (.obj fs) =
      (applyPatch ops v).map fun v' => .obj (setKey k v' fs) := by
  induction ops generalizing fs v with
  | nil => simp [setKey_of_alookup_eq hk]
  | cons op ops ih =>
      rw [List.map_cons, applyPatch_cons, applyPatch_cons,
        applyOp_shift_key hk op (hops op (by simp))]
      cases hres : applyOp v op with
      | none => simp [hres]
      | some v' =>
          have hk' : alookup k (setKey k v' fs) = some v' := alookup_setKey_self hk
          have hrec := ih hk' (fun o ho => hops o (by simp [ho]))
          rw [Option.map_some', Option.some_bind, Option.some_bind, hrec]
          cases applyPatch ops v' <;> simp [setKey_setKey]

/-- A whole operation sequence under index `i` rewrites just that element. -/
theorem applyPatch_shift_idx {ops : List PatchOp} {xs : List Json}
    {i : Nat} {x : Json} (hx : xs[i]? = some x)
    (hops : ∀ op ∈ ops, OpOk op) :
    applyPatch (ops.map (shiftStep (.idx i))) (.arr xs) =
      (applyPatch ops x).map fun x' => .arr (xs.set i x') := by
  induction ops generalizing xs x with
  | nil =>
      have : xs.set i x = xs := by
        apply List.ext_getElem?
        intro j
        by_cases hij : i = j
        · subst hij
          rw [List.getElem?_set_self (by
            have := List.getElem?_eq_some_iff.mp hx
            exact this.1)]
          exact hx.symm
        · exact List.getElem?_set_ne hij
      simp [this]
  | cons op ops ih =>
      rw [List.map_cons, applyPatch_cons, applyPatch_cons,
        applyOp_shift_idx hx op (hops op (by simp))]
      cases hres : applyOp x op with
      | none => simp [hres]
      | some x' =>
          have hx' : (xs.set i x')[i]? = some x' := by
            apply List.getElem?_set_self
            have := List.getElem?_eq_some_iff.mp hx
            exact this.1
          have hrec := ih hx' (fun o ho => hops o (by simp [ho]))
          rw [Option.map_some', Option.some_bind, Option.some_bind, hrec]
          cases applyPatch ops x' <;> simp [List.set_set]

/-! ### Every diff-emitted operation is well shaped -/

theorem opOk_diffRemoves {fs gs : List (String × Json)} :
    ∀ op ∈ diffRemoves fs gs, OpOk op := by
  induction fs with
  | nil => intro op h; simp [diffRemoves] at h
  | cons kv rest ih =>
      obtain ⟨k, v⟩ := kv
      intro op h
      rw [diffRemoves] at h
      rcases List.mem_append.mp h with h | h
      · cases halo : alookup k gs with
        | some w =>
            rw [halo] at h
            obtain ⟨op', _, rfl⟩ := List.mem_map.mp h
            exact opOk_shiftStep _ _
        | none =>
            rw [halo] at h
            simp at h
            subst h
            simp [OpOk]
      · exact ih op h

theorem opOk_diffAdds {fs gs : List (String × Json)} :
    ∀ op ∈ diffAdds fs gs, OpOk op := by
  intro op h
  obtain ⟨kv, _, hop⟩ := List.mem_filterMap.mp h
  by_cases hin : (alookup kv.1 fs).isSome
  · simp [hin] at hop
  · simp [hin] at hop
    subst hop
    simp [OpOk]

theorem opOk_diffElems {xs ys : List Json} {i : Nat} :
    ∀ op ∈ diffElems i xs ys, OpOk op := by
  induction xs generalizing ys i with
  | nil => intro op h; simp [diffElems] at h
  | cons x rest ih =>
      intro op h
      cases ys with
      | nil => simp [diffElems] at h
      | cons y ys =>
          rw [diffElems] at h
          rcases List.mem_append.mp h with h | h
          · obtain ⟨op', _, rfl⟩ := List.mem_map.mp h
            exact opOk_shiftStep _ _
          · exact ih op h

theorem opOk_diff0 {a b : Json} : ∀ op ∈ diff0 a b, OpOk op := by
  intro op h
  cases a <;> cases b <;> simp only [diff0] at h <;>
    first
    | (rcases List.mem_append.mp h with h | h
       · exact opOk_diffRemoves op h
       · exact opOk_diffAdds op h)
    | (split at h
       · exact opOk_diffElems op h
       · simp at h; subst h; simp [OpOk])
    | (split at h
       · simp at h
       · simp at h; subst h; simp [OpOk])
    | (simp at h; subst h; simp [OpOk])
    | simp at h

/-! ### Size bookkeeping for the nested recursion -/

theorem sizeOf_lt_of_mem_arr {x : Json} {xs : List Json} (h : x ∈ xs) :
    sizeOf x < sizeOf (Json.arr xs) := by
  have := List.sizeOf_lt_of_mem h
  simp only [Json.arr.sizeOf_spec]
  omega

theorem sizeOf_val_lt_of_mem_obj {kv : String × Json} {fs : List (String × Json)}
    (h : kv ∈ fs) : sizeOf kv.2 < sizeOf (Json.obj fs) := by
  have h1 := List.sizeOf_lt_of_mem h
  obtain ⟨k, v⟩ := kv
  simp only [Prod.mk.sizeOf_spec] at h1
  simp only [Json.obj.sizeOf_spec]
  omega

/-! ### Object stages: removes/replaces, then adds -/

/-- Field-list effect of the remove/replace stage of the object diff. -/
def applyRem : List (String × Json) → List (String × Json) → List (String × Json) →
    List (String × Json)
  | [], _, hs => hs
  | (k, _) :: fs, gs, hs =>
      match alookup k gs with
      | some w => applyRem fs gs (setKey k w hs)
      | none => applyRem fs gs (eraseKey k hs)

/-- Field-list effect of one RFC-6902 object add. -/
def applyAdd1 (k : String) (w : Json) (hs : List (String × Json)) : List (String × Json) :=
  if (alookup k hs).isSome then setKey k w hs else insertKey k w hs

/-- Field-list effect of the add stage of the object diff. -/
def applyAdds : List (String × Json) → List (String × Json) → List (String × Json) →
    List (String × Json)
  | _, [], hs => hs
  | fs, (k, w) :: gs, hs =>
      if (alookup k fs).isSome then applyAdds fs gs hs
      else applyAdds fs gs (applyAdd1 k w hs)

theorem applyPatch_diffRemoves {fs gs hs : List (String × Json)}
    (hrt : ∀ kv ∈ fs, ∀ b, Canon b → applyPatch (diff0 kv.2 b) kv.2 = some b)
    (hmem : ∀ kv ∈ fs, alookup kv.1 hs = some kv.2)
    (hnd : (fs.map Prod.fst).Nodup)
    (hcg : ∀ kv ∈ gs, Canon kv.2) :
    applyPatch (diffRemoves fs gs) (.obj hs) = some (.obj (applyRem fs gs hs)) := by
  induction fs generalizing hs with
  | nil => simp [diffRemoves, applyRem]
  | cons kv rest ih =>
      obtain ⟨k, v⟩ := kv
      rw [diffRemoves, applyPatch_append]
      have hk : alookup k hs = some v := hmem (k, v) (by simp)
      simp only [List.map_cons, List.nodup_cons] at hnd
      have hne : ∀ kv ∈ rest, kv.1 ≠ k := by
        intro kv hm hc
        exact hnd.1 (hc ▸ List.mem_map_of_mem Prod.fst hm)
      cases halo : alookup k gs with
      | some w =>
          have hcw : Canon w := hcg (k, w) (alookup_mem halo)
          have hstep := @applyPatch_shift_key (diff0 v w) hs k v hk
            (fun op ho => @opOk_diff0 v w op ho)
          rw [hstep, hrt (k, v) (by simp) w hcw, Option.map_some', Option.some_bind]
          rw [applyRem, halo]
          exact ih (fun kv hm b hc => hrt kv (by simp [hm]) b hc)
            (fun kv hm => by
              rw [alookup_setKey_ne (fun hc => hne kv hm hc.symm)]
              exact hmem kv (by simp [hm]))
            hnd.2
      | none =>
          have hone : applyPatch [PatchOp.remove [Step.key k]] (.obj hs) =
              some (.obj (eraseKey k hs)) := by
            simp [applyPatch, List.foldlM, applyOp, removeAt, hk]
          rw [hone, Option.some_bind, applyRem, halo]
          exact ih (fun kv hm b hc => hrt kv (by simp [hm]) b hc)
            (fun kv hm => by
              rw [alookup_eraseKey_ne (fun hc => hne kv hm hc.symm)]
              exact hmem kv (by simp [hm]))
            hnd.2

theorem applyPatch_diffAdds {fs gs hs : List (String × Json)} :
    applyPatch (diffAdds fs gs) (.obj hs) = some (.obj (applyAdds fs gs hs)) := by
  induction gs generalizing hs with
  | nil => simp [diffAdds, applyAdds]
  | cons kv rest ih =>
      obtain ⟨k, w⟩ := kv
      by_cases hin : (alookup k fs).isSome
      · rw [show diffAdds fs ((k, w) :: rest) = diffAdds fs rest by
          simp [diffAdds, hin]]
        rw [applyAdds, if_pos hin]
        exact ih
      · rw [show diffAdds fs ((k, w) :: rest) =
            PatchOp.add [Step.key k] w :: diffAdds fs rest by
          simp [diffAdds, hin]]
        rw [applyPatch_cons]
        have hone : applyOp (.obj hs) (PatchOp.add [Step.key k] w) =
            some (.obj (applyAdd1 k w hs)) := by
          by_cases hhs : (alookup k hs).isSome <;>
            simp [applyOp, addAt, applyAdd1, hhs]
        rw [hone, Option.some_bind, applyAdds, if_neg hin]
        exact ih

/-! ### Field-list algebra of the two stages -/

theorem alookup_not_mem {α : Type} {k : String} {l : List (String × α)}
    (h : k ∉ l.map Prod.fst) : alookup k l = none :=
  alookup_eq_none fun _kv hm hc => h (hc ▸ List.mem_map_of_mem Prod.fst hm)

theorem mem_of_alookup_isSome {α : Type} {k : String} {l : List (String × α)}
    (h : (alookup k l).isSome) : k ∈ l.map Prod.fst := by
  by_contra hab
  rw [alookup_not_mem hab] at h
  cases h

theorem alookup_applyRem {fs gs hs : List (String × Json)} (k : String)
    (hnd : (fs.map Prod.fst).Nodup)
    (hmem : ∀ kv ∈ fs, (alookup kv.1 hs).isSome)
    (hndhs : (hs.map Prod.fst).Nodup) :
    alookup k (applyRem fs gs hs) =
      if (alookup k fs).isSome then alookup k gs else alookup k hs := by
  induction fs generalizing hs with
  | nil => simp [applyRem]
  | cons kv rest ih =>
      obtain ⟨k₀, v₀⟩ := kv
      simp only [List.map_cons, List.nodup_cons] at hnd
      have hk₀ : (alookup k₀ hs).isSome := hmem (k₀, v₀) (by simp)
      obtain ⟨w₀, hw₀⟩ := Option.isSome_iff_exists.mp hk₀
      have hrest₀ : alookup k₀ rest = none := alookup_not_mem hnd.1
      have hne : ∀ kv ∈ rest, kv.1 ≠ k₀ := by
        intro kv hm hc
        exact hnd.1 (hc ▸ List.mem_map_of_mem Prod.fst hm)
      cases halo : alookup k₀ gs with
      | some w =>
          rw [applyRem, halo]
          have hrec := @ih (setKey k₀ w hs) hnd.2
            (fun kv hm => by
              rw [alookup_setKey_ne (fun hc => hne kv hm hc.symm)]
              exact hmem kv (by simp [hm]))
            (by rw [map_fst_setKey]; exact hndhs)
          rw [hrec]
          by_cases hkk : k = k₀
          · subst hkk
            simp [hrest₀, alookup_cons, alookup_setKey_self hw₀, halo]
          · have hne' : k₀ ≠ k := fun hc => hkk hc.symm
            simp [alookup_cons, hne', alookup_setKey_ne hne']
      | none =>
          rw [applyRem, halo]
          have hrec := @ih (eraseKey k₀ hs) hnd.2
            (fun kv hm => by
              rw [alookup_eraseKey_ne (fun hc => hne kv hm hc.symm)]
              exact hmem kv (by simp [hm]))
            (List.Nodup.sublist (List.Sublist.map Prod.fst (eraseKey_sublist k₀ hs)) hndhs)
          rw [hrec]
          by_cases hkk : k = k₀
          · subst hkk
            simp [hrest₀, alookup_cons, alookup_eraseKey_self hndhs, halo]
          · have hne' : k₀ ≠ k := fun hc => hkk hc.symm
            simp [alookup_cons, hne', alookup_eraseKey_ne hne']

theorem alookup_applyAdd1_self {k : String} {w : Json} {hs : List (String × Json)} :
    alookup k (applyAdd1 k w hs) = some w := by
  by_cases hhs : (alookup k hs).isSome
  · obtain ⟨v, hv⟩ := Option.isSome_iff_exists.mp hhs
    rw [applyAdd1, if_pos hhs]
    exact alookup_setKey_self hv
  · rw [applyAdd1, if_neg hhs]
    exact alookup_insertKey_self (Option.not_isSome_iff_eq_none.mp hhs)

theorem alookup_applyAdd1_ne {k k' : String} {w : Json} {hs : List (String × Json)}
    (h : k ≠ k') : alookup k' (applyAdd1 k w hs) = alookup k' hs := by
  by_cases hhs : (alookup k hs).isSome
  · rw [applyAdd1, if_pos hhs]
    exact alookup_setKey_ne h
  · rw [applyAdd1, if_neg hhs]
    exact alookup_insertKey_ne h

theorem alookup_applyAdds {fs gs hs : List (String × Json)} (k : String)
    (hndgs : (gs.map Prod.fst).Nodup) :
    alookup k (applyAdds fs gs hs) =
      match alookup k gs with
      | some w => if (alookup k fs).isSome then alookup k hs else some w
      | none => alookup k hs := by
  induction gs generalizing hs with
  | nil => simp [applyAdds]
  | cons kv rest ih =>
      obtain ⟨k₀, w₀⟩ := kv
      simp only [List.map_cons, List.nodup_cons] at hndgs
      have hrest₀ : alookup k₀ rest = none := alookup_not_mem hndgs.1
      by_cases hin : (alookup k₀ fs).isSome
      · rw [applyAdds, if_pos hin, ih hndgs.2]
        by_cases hkk : k = k₀
        · subst hkk
          rw [hrest₀, alookup_cons, if_pos rfl]
          simp [hin]
        · rw [alookup_cons, if_neg (fun hc => hkk hc.symm)]
      · rw [applyAdds, if_neg hin, ih hndgs.2]
        by_cases hkk : k = k₀
        · subst hkk
          rw [hrest₀, alookup_cons, if_pos rfl, alookup_applyAdd1_self]
          simp [hin]
        · rw [alookup_applyAdd1_ne (fun hc => hkk hc.symm), alookup_cons,
            if_neg (fun hc => hkk hc.symm)]

theorem sortedKeys_applyRem {fs gs hs : List (String × Json)}
    (hs' : SortedKeys hs) : SortedKeys (applyRem fs gs hs) := by
  induction fs generalizing hs with
  | nil => exact hs'
  | cons kv rest ih =>
      obtain ⟨k₀, v₀⟩ := kv
      cases halo : alookup k₀ gs with
      | some w =>
          rw [applyRem, halo]
          exact ih (sortedKeys_setKey hs')
      | none =>
          rw [applyRem, halo]
          exact ih (sortedKeys_eraseKey hs')

theorem sortedKeys_applyAdd1 {k : String} {w : Json} {hs : List (String × Json)}
    (h : SortedKeys hs) : SortedKeys (applyAdd1 k w hs) := by
  by_cases hhs : (alookup k hs).isSome
  · rw [applyAdd1, if_pos hhs]
    exact sortedKeys_setKey h
  · rw [applyAdd1, if_neg hhs]
    exact sortedKeys_insertKey h
      (fun hc => hhs (by
        obtain ⟨kv, hm, hfst⟩ := List.mem_map.mp hc
        exact (hfst ▸ alookup_isSome_of_mem (show (kv.1, kv.2) ∈ hs by simpa using hm))))

theorem sortedKeys_applyAdds {fs gs hs : List (String × Json)}
    (h : SortedKeys hs) : SortedKeys (applyAdds fs gs hs) := by
  induction gs generalizing hs with
  | nil => exact h
  | cons kv rest ih =>
      obtain ⟨k₀, w₀⟩ := kv
      by_cases hin : (alookup k₀ fs).isSome
      · rw [applyAdds, if_pos hin]
        exact ih h
      · rw [applyAdds, if_neg hin]
        exact ih (sortedKeys_applyAdd1 h)

/-- Two strictly key-sorted association lists with the same lookups are equal. -/
theorem sorted_alookup_ext {l₁ l₂ : List (String × Json)}
    (h₁ : SortedKeys l₁) (h₂ : SortedKeys l₂)
    (h : ∀ k, alookup k l₁ = alookup k l₂) : l₁ = l₂ := by
  induction l₁ generalizing l₂ with
  | nil =>
      cases l₂ with
      | nil => rfl
      | cons kv rest =>
          obtain ⟨k, v⟩ := kv
          have := h k
          rw [alookup_nil, alookup_cons, if_pos rfl] at this
          cases this
  | cons kv t₁ ih =>
      obtain ⟨k₁, v₁⟩ := kv
      cases l₂ with
      | nil =>
          have := h k₁
          rw [alookup_nil, alookup_cons, if_pos rfl] at this
          cases this
      | cons kv₂ t₂ =>
          obtain ⟨k₂, v₂⟩ := kv₂
          obtain ⟨hhd₁, htl₁⟩ := List.pairwise_cons.mp h₁
          obtain ⟨hhd₂, htl₂⟩ := List.pairwise_cons.mp h₂
          have hk : k₁ = k₂ := by
            by_contra hne
            have e₁ : alookup k₁ ((k₂, v₂) :: t₂) = some v₁ := by
              rw [← h k₁, alookup_cons, if_pos rfl]
            have e₂ : alookup k₂ ((k₁, v₁) :: t₁) = some v₂ := by
              rw [h k₂, alookup_cons, if_pos rfl]
            rw [alookup_cons, if_neg (fun hc => hne hc.symm)] at e₁
            rw [alookup_cons, if_neg hne] at e₂
            have hm₁ : (k₁, v₁) ∈ t₂ := alookup_mem e₁
            have hm₂ : (k₂, v₂) ∈ t₁ := alookup_mem e₂
            have hlt₁ : k₂ < k₁ := hhd₂ (k₁, v₁) hm₁
            have hlt₂ : k₁ < k₂ := hhd₁ (k₂, v₂) hm₂
            exact absurd (lt_trans hlt₁ hlt₂) (lt_irrefl k₂)
          subst hk
          have hv : v₁ = v₂ := by
            have := h k₁
            rw [alookup_cons, if_pos rfl, alookup_cons, if_pos rfl] at this
            exact Option.some.inj this
          subst hv
          have htl : ∀ k, alookup k t₁ = alookup k t₂ := by
            intro k
            by_cases hkk : k = k₁
            · subst hkk
              have hn₁ : alookup k t₁ = none :=
                alookup_eq_none fun kv hm hc => absurd (hc ▸ hhd₁ kv hm) (lt_irrefl k)
              have hn₂ : alookup k t₂ = none :=
                alookup_eq_none fun kv hm hc => absurd (hc ▸ hhd₂ kv hm) (lt_irrefl k)
              rw [hn₁, hn₂]
            · have := h k
              rw [alookup_cons, if_neg (fun hc => hkk hc.symm),
                alookup_cons, if_neg (fun hc => hkk hc.symm)] at this
              exact this
          rw [ih htl₁ htl₂ htl]

/-! ### The roundtrip property of the diff -/

theorem applyPatch_replace_root (a b : Json) :
    applyPatch [PatchOp.replace [] b] a = some b := by
  simp [applyPatch, List.foldlM, applyOp, replaceAt]

theorem set_append_cons {pre xs : List Json} {x y : Json} :
    (pre ++ x :: xs).set pre.length y = pre ++ y :: xs := by
  induction pre with
  | nil => rfl
  | cons z pre ih => simp [List.set, ih]

theorem applyPatch_diffElems {xs : List Json} :
    ∀ {ys pre : List Json}, xs.length = ys.length →
    (∀ x ∈ xs, ∀ b, Canon b → applyPatch (diff0 x b) x = some b) →
    (∀ y ∈ ys, Canon y) →
    applyPatch (diffElems pre.length xs ys) (.arr (pre ++ xs)) = some (.arr (pre ++ ys)) := by
  induction xs with
  | nil =>
      intro ys pre hlen _ _
      cases ys with
      | nil => simp [diffElems]
      | cons y ys => cases hlen
  | cons x rest ih =>
      intro ys pre hlen hrt hcy
      cases ys with
      | nil => cases hlen
      | cons y ys =>
          rw [diffElems, applyPatch_append]
          have hx : (pre ++ x :: rest)[pre.length]? = some x := by
            rw [List.getElem?_append_right (le_refl pre.length)]
            simp
          have hstep := @applyPatch_shift_idx (diff0 x y) (pre ++ x :: rest) pre.length x hx
            (fun op ho => @opOk_diff0 x y op ho)
          rw [hstep, hrt x (by simp) y (hcy y (by simp)), Option.map_some', Option.some_bind,
            set_append_cons]
          have hres := @ih ys (pre ++ [y]) (by simpa using hlen)
            (fun x' hm b hc => hrt x' (by simp [hm]) b hc)
            (fun y' hm => hcy y' (by simp [hm]))
          simp only [List.length_append, List.length_cons, List.length_nil] at hres ⊢
          simpa [List.append_assoc] using hres

/-- Roundtrip: applying the diff of two canonical values to the original
yields exactly the modified value. -/
theorem diff0_roundtrip : ∀ (n : Nat) (a : Json), sizeOf a ≤ n → Canon a →
    ∀ (b : Json), Canon b → applyPatch (diff0 a b) a = some b := by
  intro n
  induction n with
  | zero =>
      intro a ha
      exact absurd ha (by cases a <;> simp)
  | succ n ih =>
      intro a ha hca b hcb
      cases a with
      | null =>
          cases b <;> simp [diff0, applyPatch_replace_root]
      | bool va =>
          cases b <;> simp [diff0, applyPatch_replace_root]
          case bool vb =>
            by_cases hv : va = vb <;>
              simp [hv, applyPatch, List.foldlM, applyOp, replaceAt]
      | num va =>
          cases b <;> simp [diff0, applyPatch_replace_root]
          case num vb =>
            by_cases hv : va = vb <;>
              simp [hv, applyPatch, List.foldlM, applyOp, replaceAt]
      | str va =>
          cases b <;> simp [diff0, applyPatch_replace_root]
          case str vb =>
            by_cases hv : va = vb <;>
              simp [hv, applyPatch, List.foldlM, applyOp, replaceAt]
      | arr xs =>
          cases b with
          | arr ys =>
              rw [diff0]
              by_cases hlen : xs.length = ys.length
              · rw [if_pos hlen]
                have hcx : ∀ x ∈ xs, Canon x := by
                  cases hca with | arr h => exact h
                have hcy : ∀ y ∈ ys, Canon y := by
                  cases hcb with | arr h => exact h
                have hrt : ∀ x ∈ xs, ∀ c, Canon c → applyPatch (diff0 x c) x = some c := by
                  intro x hm c hc
                  have hsz : sizeOf x ≤ n :=
                    Nat.le_of_lt_succ (lt_of_lt_of_le (sizeOf_lt_of_mem_arr hm) ha)
                  exact ih x hsz (hcx x hm) c hc
                have := @applyPatch_diffElems xs ys [] hlen hrt hcy
                simpa using this
              · rw [if_neg hlen]
                exact applyPatch_replace_root _ _
          | null => simp [diff0, applyPatch_replace_root]
          | bool vb => simp [diff0, applyPatch_replace_root]
          | num vb => simp [diff0, applyPatch_replace_root]
          | str vb => simp [diff0, applyPatch_replace_root]
          | obj gs => simp [diff0, applyPatch_replace_root]
      | obj fs =>
          cases b with
          | obj gs =>
              rw [diff0, applyPatch_append]
              obtain ⟨hsf, hcf⟩ := by
                cases hca with | obj h1 h2 => exact And.intro h1 h2
              obtain ⟨hsg, hcg⟩ := by
                cases hcb with | obj h1 h2 => exact And.intro h1 h2
              have hndf : (fs.map Prod.fst).Nodup := SortedKeys.nodupKeys hsf
              have hndg : (gs.map Prod.fst).Nodup := SortedKeys.nodupKeys hsg
              have hrt : ∀ kv ∈ fs, ∀ b, Canon b →
                  applyPatch (diff0 kv.2 b) kv.2 = some b := by
                intro kv hm b hc
                have hsz : sizeOf kv.2 ≤ n :=
                  Nat.le_of_lt_succ (lt_of_lt_of_le (sizeOf_val_lt_of_mem_obj hm) ha)
                exact ih kv.2 hsz (hcf kv hm) b hc
              have hmem : ∀ kv ∈ fs, alookup kv.1 fs = some kv.2 := by
                intro kv hm
                exact alookup_of_mem_nodup hndf (by simpa using hm)
              rw [applyPatch_diffRemoves hrt hmem hndf hcg, Option.some_bind,
                applyPatch_diffAdds]
              have hfinal : applyAdds fs gs (applyRem fs gs fs) = gs := by
                apply sorted_alookup_ext
                · exact sortedKeys_applyAdds (sortedKeys_applyRem hsf)
                · exact hsg
                · intro k
                  have hmem' : ∀ kv ∈ fs, (alookup kv.1 fs).isSome := by
                    intro kv hm
                    rw [hmem kv hm]; rfl
                  have hR := @alookup_applyRem fs gs fs k hndf hmem' hndf
                  have hA := @alookup_applyAdds fs gs (applyRem fs gs fs) k hndg
                  rw [hA]
                  cases hg : alookup k gs with
                  | some w =>
                      by_cases hin : (alookup k fs).isSome
                      · simp [hR, hin, hg]
                      · simp [hin]
                  | none =>
                      by_cases hin : (alookup k fs).isSome
                      · simp [hR, hin, hg]
                      · simp [hR, hin, Option.not_isSome_iff_eq_none.mp hin]
              rw [hfinal]
          | null => simp [diff0, applyPatch_replace_root]
          | bool vb => simp [diff0, applyPatch_replace_root]
          | num vb => simp [diff0, applyPatch_replace_root]
          | str vb => simp [diff0, applyPatch_replace_root]
          | arr ys => simp [diff0, applyPatch_replace_root]

/-! ### The diff of a value with itself is empty -/

theorem diffRemoves_self {fs gs : List (String × Json)}
    (hl : ∀ kv ∈ fs, alookup kv.1 gs = some kv.2)
    (hd : ∀ kv ∈ fs, diff0 kv.2 kv.2 = []) : diffRemoves fs gs = [] := by
  induction fs with
  | nil => rfl
  | cons kv rest ih =>
      obtain ⟨k, v⟩ := kv
      rw [diffRemoves, hl (k, v) (by simp)]
      simp only [show diff0 v v = [] from hd (k, v) (by simp), List.map_nil, List.nil_append]
      exact ih (fun kv hm => hl kv (by simp [hm])) (fun kv hm => hd kv (by simp [hm]))

theorem diffAdds_self {fs gs : List (String × Json)}
    (h : ∀ kv ∈ gs, (alookup kv.1 fs).isSome) : diffAdds fs gs = [] := by
  rw [diffAdds, List.filterMap_eq_nil_iff]
  intro kv hm
  simp [h kv hm]

theorem diffElems_self {xs : List Json} (hd : ∀ x ∈ xs, diff0 x x = []) :
    ∀ i, diffElems i xs xs = [] := by
  induction xs with
  | nil => intro i; rfl
  | cons x rest ih =>
      intro i
      rw [diffElems, hd x (by simp)]
      simp only [List.map_nil, List.nil_append]
      exact ih (fun x hm => hd x (by simp [hm])) (i + 1)

/-- The diff of any canonical value with itself is the empty sequence. -/
theorem diff0_self : ∀ (n : Nat) (a : Json), sizeOf a ≤ n → Canon a → diff0 a a = [] := by
  intro n
  induction n with
  | zero =>
      intro a ha
      exact absurd ha (by cases a <;> simp)
  | succ n ih =>
      intro a ha hca
      cases a with
      | null => simp [diff0]
      | bool v => simp [diff0]
      | num v => simp [diff0]
      | str v => simp [diff0]
      | arr xs =>
          rw [diff0, if_pos rfl]
          have hcx : ∀ x ∈ xs, Canon x := by
            cases hca with | arr h => exact h
          exact diffElems_self
            (fun x hm => ih x
              (Nat.le_of_lt_succ (lt_of_lt_of_le (sizeOf_lt_of_mem_arr hm) ha))
              (hcx x hm)) 0
      | obj fs =>
          rw [diff0]
          obtain ⟨hsf, hcf⟩ := by
            cases hca with | obj h1 h2 => exact And.intro h1 h2
          have hndf : (fs.map Prod.fst).Nodup := SortedKeys.nodupKeys hsf
          rw [diffRemoves_self
              (fun kv hm => alookup_of_mem_nodup hndf (by simpa using hm))
              (fun kv hm => ih kv.2
                (Nat.le_of_lt_succ (lt_of_lt_of_le (sizeOf_val_lt_of_mem_obj hm) ha))
                (hcf kv hm)),
            diffAdds_self (fun kv hm => alookup_isSome_of_mem (show (kv.1, kv.2) ∈ fs by
              simpa using hm))]
          rfl

/-! ### The Kubernetes data model used by the webhook

Shapes follow `corev1.Pod` restricted to the fields `cmd/webhook.go`
touches.  `nspace` stands for the Go field `Namespace` (a Lean keyword).
Quantities are kept as strings; resource lists are association lists. -/

structure ResourceRequirements where
  limits : List (String × String) := []
  requests : List (String × String) := []
deriving DecidableEq, Repr

structure Container where
  name : String
  resources : ResourceRequirements := {}
deriving DecidableEq, Repr

structure PodSpec where
  containers : List Container := []
deriving DecidableEq, Repr

structure ObjectMeta where
  name : String := ""
  nspace : String := ""
  annotations : List (String × String) := []
deriving DecidableEq, Repr

structure Pod where
  metadata : ObjectMeta := {}
  spec : PodSpec := {}
deriving DecidableEq, Repr

/-- The `config` struct of `cmd/main.go`: `Pods []corev1.Pod`. -/
structure Config where
  pods : List Pod := []
deriving DecidableEq, Repr

/-- The constants `metav1.NamespaceSystem` and `metav1.NamespacePublic`, the fixed
`ignoredNamespaces` list of `cmd/webhook.go`. -/
def ignoredNamespaces : List String := ["kube-system", "kube-public"]

/-- The default of the `-annotation` flag in `cmd/main.go`. -/
def defaultAnnot : String := "pod-modifier.solace.com/modify"

/-- Models `mutationRequired` of `cmd/webhook.go`: scan the ignored list and
refuse mutation when the pod's namespace appears in it. -/
def mutationRequired (ignoredList : List String) (metadata : ObjectMeta) : Bool :=
  match ignoredList with
  | [] => true
  | ns :: rest => if metadata.nspace = ns then false else mutationRequired rest metadata

/-! ### Marshaling a pod to its canonical structural form

Models `json.Marshal` on the fields relevant to diffing. -/

def stringMapToJson (m : List (String × String)) : Json :=
  .obj (m.map fun kv => (kv.1, .str kv.2))

def resourcesToJson (r : ResourceRequirements) : Json :=
  .obj [("limits", stringMapToJson r.limits), ("requests", stringMapToJson r.requests)]

def containerToJson (c : Container) : Json :=
  .obj [("name", .str c.name), ("resources", resourcesToJson c.resources)]

def podToJson (p : Pod) : Json :=
  .obj
    [("metadata", .obj
        [("annotations", stringMapToJson p.metadata.annotations),
         ("name", .str p.metadata.name),
         ("namespace", .str p.metadata.nspace)]),
     ("spec", .obj [("containers", .arr (p.spec.containers.map containerToJson))])]

/-! ### The container-override loops of `createPatch`

`cmd/webhook.go` lines 141-153: for every container of the matched
annotation entry, every container of the working copy with the same name
gets its resources replaced; `found` records whether any pair matched. -/

/-- The inner loop: one override container against the working copy's
container list.  Returns the rewritten list and whether a name matched. -/
def applyInner (cfgC : Container) : List Container → List Container × Bool
  | [] => ([], false)
  | c :: rest =>
      let p := applyInner cfgC rest
      if cfgC.name = c.name then ({ c with resources := cfgC.resources } :: p.1, true)
      else (c :: p.1, p.2)

/-- The outer loop over the override entry's containers, threading the
working copy and the `found` flag. -/
def applyOuter (cfgCs : List Container) (cs : List Container) (found : Bool) :
    List Container × Bool :=
  match cfgCs with
  | [] => (cs, found)
  | cc :: rest =>
      let p := applyInner cc cs
      applyOuter rest p.1 (found || p.2)

/-- Steps 4-6 of `createPatch`: rewrite the working copy's containers from the
matched entry `cpod`; if nothing matched return empty patch bytes
(`Ok none`), otherwise diff the marshaled pods. -/
def containerPhase (cpod : Pod) (pod : Pod) : Except String (Option (List PatchOp)) :=
  let r := applyOuter cpod.spec.containers pod.spec.containers false
  if r.2 then
    .ok (some (diff0 (podToJson pod) (podToJson { pod with spec := { containers := r.1 } })))
  else .ok none

/-- Models `createPatch` of `cmd/webhook.go`.  `decCfg` stands for
`json.Unmarshal` into `config` (external library code).  The result models
the Go pair `([]byte, error)`: `.error e` for a non-nil error, `.ok none`
for empty patch bytes, `.ok (some ops)` for marshaled patch operations. -/
def createPatch (decCfg : String → Except String Config) (annotKey : String) (pod : Pod) :
    Except String (Option (List PatchOp)) :=
  match alookup (annotKey ++ ".podDefinition") pod.metadata.annotations with
  | none => .ok none
  | some podDef =>
      match decCfg podDef with
      | .error e => .error e
      | .ok c =>
          match c.pods.find? fun cpod => pod.metadata.name == cpod.metadata.name with
          | none => .ok none
          | some cpod => containerPhase cpod pod

/-! ### The admission protocol adapter -/

inductive PatchType where
  | jsonPatch : PatchType
deriving DecidableEq, Repr

structure AdmissionRequest where
  uid : String := ""
  kind : String := ""
  nspace : String := ""
  name : String := ""
  operation : String := ""
  userInfo : String := ""
  objectRaw : String := ""
deriving DecidableEq, Repr

/-- Models `v1.AdmissionResponse`: `result` is the optional `Result.Message`;
`patch` models the patch bytes (`none` for the empty byte slice). -/
structure AdmissionResponse where
  uid : String := ""
  allowed : Bool := false
  result : Option String := none
  patch : Option (List PatchOp) := none
  patchType : Option PatchType := none

structure AdmissionReview where
  request : Option AdmissionRequest := none
  response : Option AdmissionResponse := none

/-- Models `mutate` of `cmd/webhook.go`.  `decPod` stands for `json.Unmarshal`
into `corev1.Pod`.  The Go code dereferences `ar.Request` without a nil
check; a `none` request therefore has no defined result, modelled as
`none` (the nil-pointer panic). -/
def mutate (decPod : String → Except String Pod) (decCfg : String → Except String Config)
    (annotKey : String) (ar : AdmissionReview) : Option AdmissionResponse :=
  match ar.request with
  | none => none
  | some req =>
      match decPod req.objectRaw with
      | .error e => some { result := some e }
      | .ok pod =>
          if mutationRequired ignoredNamespaces pod.metadata then
            match createPatch decCfg annotKey pod with
            | .error e => some { result := some e }
            | .ok patchBytes =>
                some { allowed := true, patch := patchBytes,
                       patchType := some PatchType.jsonPatch }
          else
            some { allowed := true }

/-- The identifier of the decoded review's request (`""` when absent, the
zero value of `types.UID`). -/
def requestUID (ar : AdmissionReview) : String :=
  match ar.request with
  | some req => req.uid
  | none => ""

/-- Models `serve` of `cmd/webhook.go` from the envelope-decode stage on (the
empty-body and content-type rejections happen before and produce no
review).  `decEnv` models `deserializer.Decode`: it yields the review as
populated so far together with an optional error.  The response review is
built fresh, echoing `ar.Request.UID` whenever a request was decoded. -/
def serve (decEnv : String → AdmissionReview × Option String)
    (decPod : String → Except String Pod) (decCfg : String → Except String Config)
    (annotKey : String) (body : String) : Option AdmissionReview :=
  let p := decEnv body
  let ar := p.1
  let admissionResponse : Option AdmissionResponse :=
    match p.2 with
    | some e => some { result := some e }
    | none => mutate decPod decCfg annotKey ar
  match admissionResponse with
  | none => none
  | some resp =>
      let resp' :=
        match ar.request with
        | some req => { resp with uid := req.uid }
        | none => resp
      some { response := some resp' }

/-! ### Characterizing the container-override loops -/

/-- The effect of one override container on one working-copy container. -/
def stepC (ov c : Container) : Container :=
  if ov.name = c.name then { c with resources := ov.resources } else c

/-- The cumulative effect of the override list, applied in order. -/
def applyAll (ovs : List Container) (c : Container) : Container :=
  ovs.foldl (fun c ov => stepC ov c) c

/-- The resources a container ends up with: those of the last override
container bearing its name, or its own when no override names it. -/
def lastMatchRes (ovs : List Container) (c : Container) : ResourceRequirements :=
  match ovs.reverse.find? fun ov => ov.name == c.name with
  | some ov => ov.resources
  | none => c.resources

theorem stepC_name (ov c : Container) : (stepC ov c).name = c.name := by
  rw [stepC]
  split <;> rfl

theorem applyAll_name (ovs : List Container) (c : Container) :
    (applyAll ovs c).name = c.name := by
  induction ovs generalizing c with
  | nil => rfl
  | cons ov rest ih =>
      rw [applyAll, List.foldl_cons]
      exact (ih (stepC ov c)).trans (stepC_name ov c)

theorem applyAll_resources (ovs : List Container) (c : Container) :
    (applyAll ovs c).resources = lastMatchRes ovs c := by
  induction ovs generalizing c with
  | nil => rfl
  | cons ov rest ih =>
      rw [applyAll, List.foldl_cons, show List.foldl (fun c ov => stepC ov c) (stepC ov c) rest
          = applyAll rest (stepC ov c) from rfl, ih]
      rw [lastMatchRes, lastMatchRes, List.reverse_cons, List.find?_append]
      have hname : (stepC ov c).name = c.name := stepC_name ov c
      simp only [hname]
      cases hfind : rest.reverse.find? fun o : Container => o.name == c.name with
      | some o => simp [hfind]
      | none =>
          simp only [hfind, Option.none_or]
          rw [stepC]
          by_cases hov : ov.name = c.name
          · simp [List.find?_cons, hov]
          · simp [List.find?_cons, hov]

theorem applyInner_eq (cc : Container) (cs : List Container) :
    applyInner cc cs =
      (cs.map (stepC cc), cs.any fun c => cc.name == c.name) := by
  induction cs with
  | nil => rfl
  | cons c rest ih =>
      rw [applyInner, ih]
      by_cases h : cc.name = c.name
      · simp [h, stepC]
      · simp [h, stepC]

theorem applyOuter_eq (ovs : List Container) (cs : List Container) (f : Bool) :
    applyOuter ovs cs f =
      (cs.map (applyAll ovs), f || ovs.any fun ov => cs.any fun c => ov.name == c.name) := by
  induction ovs generalizing cs f with
  | nil =>
      rw [applyOuter]
      have h1 : List.map (applyAll []) cs = cs := by
        rw [show applyAll [] = fun c : Container => c from rfl, List.map_id']
      rw [h1]
      simp
  | cons cc rest ih =>
      rw [applyOuter, applyInner_eq, ih, List.map_map]
      rw [Prod.mk.injEq]
      refine ⟨List.map_congr_left fun c _ => rfl, ?_⟩
      have hmap : (rest.any fun ov => (cs.map (stepC cc)).any fun c => ov.name == c.name)
          = rest.any fun ov => cs.any fun c => ov.name == c.name := by
        apply congrArg
        funext ov
        rw [List.any_map]
        apply congrArg
        funext c
        simp [Function.comp, stepC_name]
      rw [hmap, List.any_cons, ← Bool.or_assoc]

/-- The check `mutationRequired` returns false exactly on membership in the ignored
list. -/
theorem mutationRequired_eq_false_iff (l : List String) (m : ObjectMeta) :
    mutationRequired l m = false ↔ m.nspace ∈ l := by
  induction l with
  | nil => simp [mutationRequired]
  | cons ns rest ih =>
      rw [mutationRequired]
      by_cases h : m.nspace = ns
      · simp [h]
      · simp only [if_neg h, ih, List.mem_cons]
        exact ⟨fun hm => Or.inr hm, fun hm => hm.elim (fun hc => absurd hc h) id⟩

/-! ## The claims -/

/-- Claim C1: for every Pod and matched override entry, the mutation
replaces the resource-requirements of every working-copy container whose
name equals an override container's name (zero, one or several matches,
duplicates included — the last matching override wins) wholesale with the
override's resource-requirements, leaving names and every unmatched
container unchanged; and if no container name matches at all, the result
is no mutation (`Ok none`). -/
theorem containerOverride_replaces_every_match (cpod pod : Pod) (i : Nat)
    (hi : i < pod.spec.containers.length) :
    (applyOuter cpod.spec.containers pod.spec.containers false).1.length
        = pod.spec.containers.length ∧
    (applyOuter cpod.spec.containers pod.spec.containers false).1[i]? =
      some { name := pod.spec.containers[i].name
             resources := lastMatchRes cpod.spec.containers pod.spec.containers[i] } ∧
    (applyOuter cpod.spec.containers pod.spec.containers false).2 =
      (cpod.spec.containers.any fun ov => pod.spec.containers.any fun c => ov.name == c.name) ∧
    ((∀ ov ∈ cpod.spec.containers, ∀ c ∈ pod.spec.containers, ov.name ≠ c.name) →
      containerPhase cpod pod = .ok none) := by
  rw [applyOuter_eq]
  refine ⟨by simp, ?_, by simp, ?_⟩
  · rw [List.getElem?_map, List.getElem?_eq_getElem hi, Option.map_some']
    have h1 := applyAll_name cpod.spec.containers pod.spec.containers[i]
    have h2 := applyAll_resources cpod.spec.containers pod.spec.containers[i]
    cases happ : applyAll cpod.spec.containers pod.spec.containers[i]
    rw [happ] at h1 h2
    simp only at h1 h2
    rw [h1, h2]
  · intro hnone
    have hany : (cpod.spec.containers.any fun ov =>
        pod.spec.containers.any fun c => ov.name == c.name) = false := by
      rw [List.any_eq_false]
      intro ov hov
      rw [Bool.not_eq_true, List.any_eq_false]
      intro c hc
      simpa using hnone ov hov c hc
    rw [containerPhase, applyOuter_eq]
    simp [hany]

def cpodW1 : Pod :=
  { metadata := { name := "p" }
    spec := { containers := [{ name := "solace"
                               resources := { requests := [("cpu", "500m")] } }] } }

def podW1 : Pod :=
  { metadata := { name := "p", nspace := "default" }
    spec := { containers := [{ name := "solace"
                               resources := { requests := [("cpu", "0.2")] } },
                             { name := "sidecar" }] } }

theorem containerOverride_witness :
    0 < podW1.spec.containers.length ∧
    (applyOuter cpodW1.spec.containers podW1.spec.containers false).1.length
        = podW1.spec.containers.length ∧
    (applyOuter cpodW1.spec.containers podW1.spec.containers false).1[0]? =
      some { name := podW1.spec.containers[0].name
             resources := lastMatchRes cpodW1.spec.containers podW1.spec.containers[0] } ∧
    (applyOuter cpodW1.spec.containers podW1.spec.containers false).2 =
      (cpodW1.spec.containers.any fun ov =>
        podW1.spec.containers.any fun c => ov.name == c.name) ∧
    ((∀ ov ∈ cpodW1.spec.containers, ∀ c ∈ podW1.spec.containers, ov.name ≠ c.name) →
      containerPhase cpodW1 podW1 = .ok none) :=
  ⟨by simp [podW1], containerOverride_replaces_every_match cpodW1 podW1 0 (by simp [podW1])⟩

/-- Claim C2: the mutation engine selects the first override Pod entry (in
sequence order) whose name exactly equals the target Pod's name, and when
no entry's name matches, the result is no mutation (`Ok none`). -/
theorem podEntry_first_match (decCfg : String → Except String Config) (annotKey : String)
    (pod : Pod) (s : String) (c : Config)
    (hlook : alookup (annotKey ++ ".podDefinition") pod.metadata.annotations = some s)
    (hdec : decCfg s = .ok c) :
    ((c.pods.find? fun cpod => pod.metadata.name == cpod.metadata.name) = none →
        createPatch decCfg annotKey pod = .ok none) ∧
    ∀ cpod, (c.pods.find? fun cpod => pod.metadata.name == cpod.metadata.name) = some cpod →
        createPatch decCfg annotKey pod = containerPhase cpod pod := by
  constructor
  · intro hf
    simp [createPatch, hlook, hdec, hf]
  · intro cpod hf
    simp [createPatch, hlook, hdec, hf]

def podW2 : Pod :=
  { metadata := { name := "c"
                  nspace := "default"
                  annotations := [("pod-modifier.solace.com/modify.podDefinition", "spec")] } }

def cfgW2 : Config :=
  { pods := [{ metadata := { name := "a" } }, { metadata := { name := "b" } }] }

def decCfgW2 : String → Except String Config := fun _ => .ok cfgW2

theorem podEntry_first_match_witness :
    alookup (defaultAnnot ++ ".podDefinition") podW2.metadata.annotations = some "spec" ∧
    decCfgW2 "spec" = .ok cfgW2 ∧
    createPatch decCfgW2 defaultAnnot podW2 = .ok none :=
  ⟨rfl, rfl,
    (podEntry_first_match decCfgW2 defaultAnnot podW2 "spec" cfgW2 rfl rfl).1 rfl⟩

/-- Claim C3: a Pod whose namespace is in the fixed excluded set
(`kube-system`, `kube-public`) gets an allowed response with no mutation,
regardless of its annotations; and `mutationRequired` returns false
exactly when the namespace is in the excluded list, with no error path. -/
theorem excluded_namespace_no_mutation (decPod : String → Except String Pod)
    (decCfg : String → Except String Config) (annotKey : String)
    (ar : AdmissionReview) (req : AdmissionRequest) (pod : Pod)
    (h1 : ar.request = some req) (h2 : decPod req.objectRaw = .ok pod)
    (h3 : pod.metadata.nspace ∈ ignoredNamespaces) :
    mutate decPod decCfg annotKey ar = some { allowed := true } ∧
    ∀ (l : List String) (m : ObjectMeta), mutationRequired l m = false ↔ m.nspace ∈ l := by
  refine ⟨?_, mutationRequired_eq_false_iff⟩
  have hreq : mutationRequired ignoredNamespaces pod.metadata = false :=
    (mutationRequired_eq_false_iff ignoredNamespaces pod.metadata).mpr h3
  simp [mutate, h1, h2, hreq]

def podW3 : Pod :=
  { metadata := { name := "p"
                  nspace := "kube-system"
                  annotations := [("pod-modifier.solace.com/modify.podDefinition", "junk")] } }

def decPodW3 : String → Except String Pod := fun _ => .ok podW3

def decCfgW3 : String → Except String Config := fun _ => .error "junk is not json"

def arW3 : AdmissionReview := { request := some { uid := "w3", objectRaw := "raw" } }

theorem excluded_namespace_witness :
    arW3.request = some { uid := "w3", objectRaw := "raw" } ∧
    decPodW3 "raw" = .ok podW3 ∧
    podW3.metadata.nspace ∈ ignoredNamespaces ∧
    mutate decPodW3 decCfgW3 defaultAnnot arW3 = some { allowed := true } :=
  ⟨rfl, rfl, by simp [podW3, ignoredNamespaces],
    (excluded_namespace_no_mutation decPodW3 decCfgW3 defaultAnnot arW3
      { uid := "w3", objectRaw := "raw" } podW3 rfl rfl
      (by simp [podW3, ignoredNamespaces])).1⟩

/-- Claim C4: an annotation value present at the configured key that fails
deserialization makes the mutation computation return the underlying
non-empty decode diagnostic as an error — not a silent no-op and not a
crash — and `mutate` propagates it as the response's failure message. -/
theorem malformed_annotation_error (decPod : String → Except String Pod)
    (decCfg : String → Except String Config) (annotKey : String)
    (ar : AdmissionReview) (req : AdmissionRequest) (pod : Pod) (s e : String)
    (h1 : ar.request = some req) (h2 : decPod req.objectRaw = .ok pod)
    (h3 : mutationRequired ignoredNamespaces pod.metadata = true)
    (hlook : alookup (annotKey ++ ".podDefinition") pod.metadata.annotations = some s)
    (hdec : decCfg s = .error e) (hne : e ≠ "") :
    createPatch decCfg annotKey pod = .error e ∧ e ≠ "" ∧
    mutate decPod decCfg annotKey ar = some { result := some e } := by
  have hcp : createPatch decCfg annotKey pod = .error e := by
    simp [createPatch, hlook, hdec]
  refine ⟨hcp, hne, ?_⟩
  simp [mutate, h1, h2, h3, hcp]

def podW4 : Pod :=
  { metadata := { name := "p"
                  nspace := "default"
                  annotations := [("pod-modifier.solace.com/modify.podDefinition", "not-json-oops")] } }

def decPodW4 : String → Except String Pod := fun _ => .ok podW4

def decCfgW4 : String → Except String Config :=
  fun _ => .error "unexpected end of JSON input"

def arW4 : AdmissionReview := { request := some { uid := "w4", objectRaw := "raw" } }

theorem malformed_annotation_witness :
    arW4.request = some { uid := "w4", objectRaw := "raw" } ∧
    decPodW4 "raw" = .ok podW4 ∧
    mutationRequired ignoredNamespaces podW4.metadata = true ∧
    alookup (defaultAnnot ++ ".podDefinition") podW4.metadata.annotations = some "not-json-oops" ∧
    decCfgW4 "not-json-oops" = .error "unexpected end of JSON input" ∧
    createPatch decCfgW4 defaultAnnot podW4 = .error "unexpected end of JSON input" ∧
    mutate decPodW4 decCfgW4 defaultAnnot arW4 =
      some { result := some "unexpected end of JSON input" } := by
  have h := malformed_annotation_error decPodW4 decCfgW4 defaultAnnot arW4
    { uid := "w4", objectRaw := "raw" } podW4 "not-json-oops" "unexpected end of JSON input"
    rfl rfl rfl rfl rfl (by simp)
  exact ⟨rfl, rfl, rfl, rfl, rfl, h.1, h.2.2⟩

/-- Claim C5 counterexample: a request whose annotation key is absent, so
the engine produced no patch (`Ok none`, empty patch bytes), still gets a
response with the JSONPatch patch-type discriminator attached — refuting
"patch and patch-type are attached only when the engine produced a
patch". -/
def podX5 : Pod := { metadata := { name := "p", nspace := "default" } }

def decPodX5 : String → Except String Pod := fun _ => .ok podX5

def decCfgX5 : String → Except String Config := fun _ => .ok {}

def arX5 : AdmissionReview := { request := some { uid := "x5", objectRaw := "raw" } }

theorem mutate_no_patch_counterexample :
    createPatch decCfgX5 defaultAnnot podX5 = .ok none ∧
    mutate decPodX5 decCfgX5 defaultAnnot arX5 =
      some { allowed := true, patch := none, patchType := some PatchType.jsonPatch } ∧
    some PatchType.jsonPatch ≠ (none : Option PatchType) :=
  ⟨rfl, rfl, by decide⟩

/-- Claim C5 (amended): when the mutation engine produced no patch
(annotation absent, no pod-name match, or no container-name match), the
response carries no patch bytes, but the JSONPatch patch-type
discriminator is still attached: mutate sets the patch bytes and the
patch-type on every successful computation for a non-excluded pod,
whether or not a patch was produced. -/
theorem mutate_no_patch_attaches_patchType (decPod : String → Except String Pod)
    (decCfg : String → Except String Config) (annotKey : String)
    (ar : AdmissionReview) (req : AdmissionRequest) (pod : Pod)
    (h1 : ar.request = some req) (h2 : decPod req.objectRaw = .ok pod)
    (h3 : mutationRequired ignoredNamespaces pod.metadata = true)
    (h4 : createPatch decCfg annotKey pod = .ok none) :
    mutate decPod decCfg annotKey ar =
      some { allowed := true, patch := none, patchType := some PatchType.jsonPatch } := by
  simp [mutate, h1, h2, h3, h4]

def podW5 : Pod := { metadata := { name := "w", nspace := "default" } }

def decPodW5 : String → Except String Pod := fun _ => .ok podW5

def decCfgW5 : String → Except String Config := fun _ => .ok {}

def arW5 : AdmissionReview := { request := some { uid := "w5", objectRaw := "raw" } }

theorem mutate_no_patch_witness :
    arW5.request = some { uid := "w5", objectRaw := "raw" } ∧
    decPodW5 "raw" = .ok podW5 ∧
    mutationRequired ignoredNamespaces podW5.metadata = true ∧
    createPatch decCfgW5 defaultAnnot podW5 = .ok none ∧
    mutate decPodW5 decCfgW5 defaultAnnot arW5 =
      some { allowed := true, patch := none, patchType := some PatchType.jsonPatch } :=
  ⟨rfl, rfl, rfl, rfl,
    mutate_no_patch_attaches_patchType decPodW5 decCfgW5 defaultAnnot arW5
      { uid := "w5", objectRaw := "raw" } podW5 rfl rfl rfl rfl⟩

/-- Claim C6 counterexample: a request whose envelope and embedded object
both decode successfully but whose annotation is malformed gets a response
with `allowed = false` — refuting "allowed = true in every non-decode-error
case". -/
def podX6 : Pod :=
  { metadata := { name := "q"
                  nspace := "default"
                  annotations := [("pod-modifier.solace.com/modify.podDefinition", "notjson")] } }

def decPodX6 : String → Except String Pod := fun _ => .ok podX6

def decCfgX6 : String → Except String Config :=
  fun _ => .error "invalid character looking for beginning of value"

def arX6 : AdmissionReview := { request := some { uid := "x6", objectRaw := "rawpod" } }

theorem mutate_allowed_counterexample :
    decPodX6 "rawpod" = .ok podX6 ∧
    (mutate decPodX6 decCfgX6 defaultAnnot arX6).map (fun r => r.allowed) = some false :=
  ⟨rfl, rfl⟩

/-- Claim C6 (amended): the admission response has `allowed = true`
whenever the envelope and embedded object decode successfully AND the
mutation computation itself succeeds (namespace excluded, or `createPatch`
returns without error); when the mutation computation fails — e.g. a
malformed annotation — the allowed flag is left unset (false) and an error
message is attached instead. -/
theorem mutate_allowed_when_computation_succeeds (decPod : String → Except String Pod)
    (decCfg : String → Except String Config) (annotKey : String)
    (ar : AdmissionReview) (req : AdmissionRequest) (pod : Pod)
    (r : Option (List PatchOp))
    (h1 : ar.request = some req) (h2 : decPod req.objectRaw = .ok pod)
    (h3 : mutationRequired ignoredNamespaces pod.metadata = false
          ∨ createPatch decCfg annotKey pod = .ok r) :
    (mutate decPod decCfg annotKey ar).map (fun resp => resp.allowed) = some true := by
  rcases h3 with h3 | h3
  · simp [mutate, h1, h2, h3]
  · by_cases hreq : mutationRequired ignoredNamespaces pod.metadata
    · simp [mutate, h1, h2, hreq, h3]
    · simp [mutate, h1, h2, hreq]

def podW6 : Pod := { metadata := { name := "w6", nspace := "default" } }

def decPodW6 : String → Except String Pod := fun _ => .ok podW6

def decCfgW6 : String → Except String Config := fun _ => .ok {}

def arW6 : AdmissionReview := { request := some { uid := "w6", objectRaw := "raw" } }

theorem mutate_allowed_witness :
    arW6.request = some { uid := "w6", objectRaw := "raw" } ∧
    decPodW6 "raw" = .ok podW6 ∧
    createPatch decCfgW6 defaultAnnot podW6 = .ok none ∧
    (mutate decPodW6 decCfgW6 defaultAnnot arW6).map (fun resp => resp.allowed) = some true :=
  ⟨rfl, rfl, rfl,
    mutate_allowed_when_computation_succeeds decPodW6 decCfgW6 defaultAnnot arW6
      { uid := "w6", objectRaw := "raw" } podW6 none rfl rfl (Or.inr rfl)⟩

/-- Claim C7 counterexample: a malformed annotation is NOT treated as "no
mutation": the pipeline produces a failure response (no allow, an error
message) instead of responding as for routine input. -/
def podX7 : Pod :=
  { metadata := { name := "r"
                  nspace := "default"
                  annotations := [("pod-modifier.solace.com/modify.podDefinition", "truncated-json")] } }

def decPodX7 : String → Except String Pod := fun _ => .ok podX7

def decCfgX7 : String → Except String Config := fun _ => .error "unexpected end of JSON input"

def arX7 : AdmissionReview := { request := some { uid := "x7", objectRaw := "raw" } }

theorem malformed_not_routine_counterexample :
    mutate decPodX7 decCfgX7 defaultAnnot arX7 =
      some { result := some "unexpected end of JSON input" } ∧
    (mutate decPodX7 decCfgX7 defaultAnnot arX7).map
        (fun r => (r.allowed, r.result.isSome)) = some (false, true) :=
  ⟨rfl, rfl⟩

/-- Claim C7 (amended): failure to locate a matching Pod entry or a
matching container is treated as "no mutation" — an allowed response with
empty patch bytes, no failure message; a malformed annotation, by
contrast, is propagated as a failure response carrying the decode error
(allowed left unset). -/
theorem mismatch_routine_malformed_failure (decPod : String → Except String Pod)
    (decCfg : String → Except String Config) (annotKey : String)
    (ar : AdmissionReview) (req : AdmissionRequest) (pod : Pod) (s : String)
    (h1 : ar.request = some req) (h2 : decPod req.objectRaw = .ok pod)
    (h3 : mutationRequired ignoredNamespaces pod.metadata = true)
    (hlook : alookup (annotKey ++ ".podDefinition") pod.metadata.annotations = some s) :
    (∀ c : Config, decCfg s = .ok c →
        (c.pods.find? fun cpod => pod.metadata.name == cpod.metadata.name) = none →
        mutate decPod decCfg annotKey ar =
          some { allowed := true, patch := none, patchType := some PatchType.jsonPatch }) ∧
    (∀ (c : Config) (cpod : Pod), decCfg s = .ok c →
        (c.pods.find? fun cpod => pod.metadata.name == cpod.metadata.name) = some cpod →
        (∀ ov ∈ cpod.spec.containers, ∀ cc ∈ pod.spec.containers, ov.name ≠ cc.name) →
        mutate decPod decCfg annotKey ar =
          some { allowed := true, patch := none, patchType := some PatchType.jsonPatch }) ∧
    (∀ e, decCfg s = .error e →
        mutate decPod decCfg annotKey ar = some { result := some e }) := by
  refine ⟨?_, ?_, ?_⟩
  · intro c hdec hf
    have hcp : createPatch decCfg annotKey pod = .ok none := by
      simp [createPatch, hlook, hdec, hf]
    simp [mutate, h1, h2, h3, hcp]
  · intro c cpod hdec hf hnone
    have hany : (cpod.spec.containers.any fun ov =>
        pod.spec.containers.any fun cc => ov.name == cc.name) = false := by
      rw [List.any_eq_false]
      intro ov hov
      rw [Bool.not_eq_true, List.any_eq_false]
      intro cc hcc
      simpa using hnone ov hov cc hcc
    have hphase : containerPhase cpod pod = .ok none := by
      rw [containerPhase, applyOuter_eq]
      simp [hany]
    have hcp : createPatch decCfg annotKey pod = .ok none := by
      simp [createPatch, hlook, hdec, hf, hphase]
    simp [mutate, h1, h2, h3, hcp]
  · intro e hdec
    have hcp : createPatch decCfg annotKey pod = .error e := by
      simp [createPatch, hlook, hdec]
    simp [mutate, h1, h2, h3, hcp]

def podW7 : Pod :=
  { metadata := { name := "w7"
                  nspace := "default"
                  annotations := [("pod-modifier.solace.com/modify.podDefinition", "cfg")] } }

def decPodW7 : String → Except String Pod := fun _ => .ok podW7

def cfgW7 : Config := { pods := [{ metadata := { name := "other" } }] }

def decCfgW7 : String → Except String Config := fun _ => .ok cfgW7

def arW7 : AdmissionReview := { request := some { uid := "w7", objectRaw := "raw" } }

theorem mismatch_routine_witness :
    arW7.request = some { uid := "w7", objectRaw := "raw" } ∧
    decPodW7 "raw" = .ok podW7 ∧
    mutationRequired ignoredNamespaces podW7.metadata = true ∧
    alookup (defaultAnnot ++ ".podDefinition") podW7.metadata.annotations = some "cfg" ∧
    mutate decPodW7 decCfgW7 defaultAnnot arW7 =
      some { allowed := true, patch := none, patchType := some PatchType.jsonPatch } :=
  ⟨rfl, rfl, rfl, rfl,
    (mismatch_routine_malformed_failure decPodW7 decCfgW7 defaultAnnot arW7
      { uid := "w7", objectRaw := "raw" } podW7 "cfg" rfl rfl rfl rfl).1 cfgW7 rfl rfl⟩

/-- Claim C8: for every input reaching the envelope-decode stage — decode
success or failure — whenever a response is produced its echoed uid equals
the decoded request's identifier (the zero value when no request was
decoded, in which case the response's uid is likewise the zero value). -/
theorem serve_echoes_request_uid (decEnv : String → AdmissionReview × Option String)
    (decPod : String → Except String Pod) (decCfg : String → Except String Config)
    (annotKey : String) (body : String) (out : AdmissionReview)
    (h : serve decEnv decPod decCfg annotKey body = some out) :
    ∃ resp, out.response = some resp ∧ resp.uid = requestUID (decEnv body).1 := by
  have hserve : serve decEnv decPod decCfg annotKey body =
      (match (match (decEnv body).2 with
              | some e => some ({ result := some e } : AdmissionResponse)
              | none => mutate decPod decCfg annotKey (decEnv body).1) with
       | none => none
       | some resp =>
           some { response := some (match (decEnv body).1.request with
                    | some req => { resp with uid := req.uid }
                    | none => resp) }) := rfl
  rw [hserve] at h
  cases herr : (decEnv body).2 with
  | some e =>
      rw [herr] at h
      cases hreq : (decEnv body).1.request with
      | some req =>
          rw [hreq] at h
          simp only [Option.some.injEq] at h
          exact ⟨_, by rw [← h], by rw [requestUID, hreq]⟩
      | none =>
          rw [hreq] at h
          simp only [Option.some.injEq] at h
          exact ⟨_, by rw [← h], by rw [requestUID, hreq]⟩
  | none =>
      rw [herr] at h
      cases hm : mutate decPod decCfg annotKey (decEnv body).1 with
      | none =>
          rw [hm] at h
          cases h
      | some resp =>
          rw [hm] at h
          cases hreq : (decEnv body).1.request with
          | some req =>
              rw [hreq] at h
              simp only [Option.some.injEq] at h
              exact ⟨_, by rw [← h], by rw [requestUID, hreq]⟩
          | none =>
              rw [mutate, hreq] at hm
              cases hm

def decEnvW8 : String → AdmissionReview × Option String :=
  fun _ => ({ request := some { uid := "idw8" } }, some "cannot decode")

def decPodW8 : String → Except String Pod := fun _ => .error "unused"

def decCfgW8 : String → Except String Config := fun _ => .ok {}

theorem serve_uid_witness :
    serve decEnvW8 decPodW8 decCfgW8 defaultAnnot "body" =
      some { response := some { uid := "idw8", result := some "cannot decode" } } ∧
    ∃ resp,
      ({ response := some { uid := "idw8", result := some "cannot decode" } } :
          AdmissionReview).response = some resp ∧
      resp.uid = requestUID (decEnvW8 "body").1 :=
  ⟨rfl, serve_echoes_request_uid decEnvW8 decPodW8 decCfgW8 defaultAnnot "body" _ rfl⟩

/-- Claim C9: the patch codec is deterministic and side-effect free (equal
inputs yield the identical operation sequence), the diff of any canonical
value with itself is the empty sequence, and applying `diff original
modified` to `original` yields exactly `modified`. -/
theorem patch_codec_laws (o m X : Json) (ho : Canon o) (hm : Canon m) (hX : Canon X) :
    diff0 X X = [] ∧
    applyPatch (diff0 o m) o = some m ∧
    ∀ a b a' b' : Json, a = a' → b = b' → diff0 a b = diff0 a' b' :=
  ⟨diff0_self (sizeOf X) X (le_refl _) hX,
   diff0_roundtrip (sizeOf o) o (le_refl _) ho m hm,
   fun _ _ _ _ h1 h2 => by rw [h1, h2]⟩

def jW9o : Json := .obj [("cpu", .str "0.5")]

def jW9m : Json := .obj [("cpu", .str "0.2")]

theorem patch_codec_witness :
    Canon jW9o ∧ Canon jW9m ∧
    diff0 jW9m jW9m = [] ∧
    applyPatch (diff0 jW9o jW9m) jW9o = some jW9m ∧
    ∀ a b a' b' : Json, a = a' → b = b' → diff0 a b = diff0 a' b' :=
  have ho : Canon jW9o :=
    Canon.obj (List.pairwise_singleton _ _)
      (fun kv hmem => by
        rw [List.mem_singleton] at hmem
        subst hmem
        exact Canon.str _)
  have hm : Canon jW9m :=
    Canon.obj (List.pairwise_singleton _ _)
      (fun kv hmem => by
        rw [List.mem_singleton] at hmem
        subst hmem
        exact Canon.str _)
  have h := patch_codec_laws jW9o jW9m jW9m ho hm hm
  ⟨ho, hm, h.1, h.2.1, h.2.2⟩

/-- Claim C10: `mutate` dereferences the decoded envelope's request object
without a presence check, so it is total only when the review carries a
request: with the request absent, the field accesses have no defined
result (nil-pointer panic, modelled `none`), even when the envelope itself
decoded without error — and `serve` then produces no response at all. -/
theorem mutate_nil_request_undefined (decPod : String → Except String Pod)
    (decCfg : String → Except String Config) (annotKey : String)
    (ar : AdmissionReview) (h : ar.request = none) :
    mutate decPod decCfg annotKey ar = none ∧
    ∀ (decEnv : String → AdmissionReview × Option String) (body : String),
      decEnv body = (ar, none) → serve decEnv decPod decCfg annotKey body = none := by
  have hmut : mutate decPod decCfg annotKey ar = none := by rw [mutate, h]
  refine ⟨hmut, ?_⟩
  intro decEnv body hde
  have hserve : serve decEnv decPod decCfg annotKey body =
      (match (match (decEnv body).2 with
              | some e => some ({ result := some e } : AdmissionResponse)
              | none => mutate decPod decCfg annotKey (decEnv body).1) with
       | none => none
       | some resp =>
           some { response := some (match (decEnv body).1.request with
                    | some req => { resp with uid := req.uid }
                    | none => resp) }) := rfl
  rw [hserve, hde]
  simp [hmut]

def arW10 : AdmissionReview := { request := none }

def decPodW10 : String → Except String Pod := fun _ => .ok {}

def decCfgW10 : String → Except String Config := fun _ => .ok {}

theorem mutate_nil_request_witness :
    arW10.request = none ∧
    mutate decPodW10 decCfgW10 defaultAnnot arW10 = none ∧
    serve (fun _ => (arW10, none)) decPodW10 decCfgW10 defaultAnnot "body" = none :=
  have h := mutate_nil_request_undefined decPodW10 decCfgW10 defaultAnnot arW10 rfl
  ⟨rfl, h.1, h.2 (fun _ => (arW10, none)) "body" rfl⟩

end Webhook
